import Mathlib

/-!
Verification development for the POE-OCR screen-watcher (src/ocr.py).

The Python source is shallowly embedded below:
* Python strings are `List Char`; `str.lower` is modelled by its ASCII case
  mapping (`pyCharLower`), the range the watch phrases and OCR output use.
* `Levenshtein.ratio` (the `Levenshtein`/rapidfuzz package) is the normalized
  indel similarity: `(|a| + |b| - dist) / (|a| + |b|)` where `dist` is the
  Levenshtein distance with substitution cost 2, and the ratio of two empty
  strings is 1.  Its `score_cutoff` argument makes it return 0 below the
  cutoff.
* Real arithmetic (the library's doubles) is modelled exactly by `Frac`,
  unreduced rational numbers with a positive denominator; `Frac.toRat` maps
  them to `ℚ` for specification statements.
* Images (numpy arrays) are rectangular `List (List _)` grids; the OpenCV
  calls the source makes (`cvtColor`, `inRange`, `bitwise_not`,
  `GaussianBlur`, Otsu `threshold`, `dilate`, `findContours`, `boundingRect`)
  are modelled pixel-faithfully from their documented 8-bit semantics.
* External collaborators (screen capture, pytesseract, playsound) are
  parameters of the pipeline functions; `playsound` calls are reified as
  `AlertCall` values so the pipeline's side effects are observable.
-/

/-! ## Exact fractions -/

/-- An exact rational with explicit numerator and denominator, not reduced:
every operation below keeps the denominator positive, and values are read
off through `Frac.toRat`.  Used to model the floating-point arithmetic of
the Python libraries by exact rational arithmetic. -/
structure Frac where
  num : Int
  den : Int
deriving Repr, DecidableEq

/-- Embed a natural number. -/
def Frac.ofNat (n : Nat) : Frac := ⟨n, 1⟩

/-- Euclidean greatest common divisor, driven by fuel (64 steps cover all
numbers below `2 ^ 64`-ish sizes many times over; the values normalized
below stay far smaller). -/
def egcd : Nat → Nat → Nat → Nat
  | 0, a, _ => a
  | _, a, 0 => a
  | f + 1, a, b + 1 => egcd f (b + 1) (a % (b + 1))

/-- Cancel the greatest common divisor of numerator and denominator.  This
keeps the represented rational value unchanged and the components small. -/
def Frac.norm (x : Frac) : Frac :=
  let g : Int := egcd 128 x.num.natAbs x.den.natAbs
  if g = 0 then x else ⟨x.num / g, x.den / g⟩

def Frac.add (a b : Frac) : Frac :=
  Frac.norm ⟨a.num * b.den + b.num * a.den, a.den * b.den⟩

def Frac.sub (a b : Frac) : Frac :=
  Frac.norm ⟨a.num * b.den - b.num * a.den, a.den * b.den⟩

def Frac.mul (a b : Frac) : Frac := Frac.norm ⟨a.num * b.num, a.den * b.den⟩

/-- Division; division by zero yields 0 (the guarded code paths below never
divide by zero).  The sign is moved so the denominator stays positive. -/
def Frac.div (a b : Frac) : Frac :=
  if b.num = 0 then ⟨0, 1⟩
  else if b.num < 0 then Frac.norm ⟨-(a.num * b.den), a.den * -b.num⟩
  else Frac.norm ⟨a.num * b.den, a.den * b.num⟩

/-- Strict comparison (valid for positive denominators). -/
def Frac.lt (a b : Frac) : Bool := a.num * b.den < b.num * a.den

/-- `std::min` as the C code uses it. -/
def Frac.fmin (a b : Frac) : Frac := if Frac.lt b a then b else a

/-- `std::max` as the C code uses it. -/
def Frac.fmax (a b : Frac) : Frac := if Frac.lt a b then b else a

/-- The rational value of a fraction. -/
def Frac.toRat (a : Frac) : ℚ := (a.num : ℚ) / (a.den : ℚ)

/-! ## Phrase matching (`getSearchStrings`, `hasMatchingPhrase`) -/

/-- ASCII case mapping of Python `str.lower`, applied per character. -/
def pyCharLower (c : Char) : Char :=
  if 'A' ≤ c ∧ c ≤ 'Z' then Char.ofNat (c.toNat + 32) else c

/-- Python `str.lower`, modelled on the ASCII range. -/
def pyLower (s : List Char) : List Char := s.map pyCharLower

/-- Levenshtein distance with insertion cost 1, deletion cost 1 and
substitution cost 2 — the distance underlying `Levenshtein.ratio`
(equivalently, the indel distance).  The fuel only drives the recursion;
`levDist` supplies enough for it to bottom out. -/
def levDistAux : Nat → List Char → List Char → Nat
  | _, [], b => b.length
  | _, a, [] => a.length
  | 0, a, b => a.length + b.length
  | fuel + 1, x :: xs, y :: ys =>
    if x = y then levDistAux fuel xs ys
    else
      min (1 + levDistAux fuel xs (y :: ys))
        (min (1 + levDistAux fuel (x :: xs) ys) (2 + levDistAux fuel xs ys))

/-- Levenshtein distance with substitution cost 2 (indel distance). -/
def levDist (a b : List Char) : Nat := levDistAux (a.length + b.length) a b

/-- `Levenshtein.ratio a b` without a cutoff: `(lensum - dist) / lensum`,
and 1 when both strings are empty. -/
def levRatio (a b : List Char) : Frac :=
  let n := a.length + b.length
  if n = 0 then ⟨1, 1⟩ else ⟨(n : Int) - levDist a b, n⟩

/-- `Levenshtein.ratio a b (score_cutoff := c)`: the ratio when it reaches the
cutoff, 0 otherwise. -/
def lvRatio (a b : List Char) (cutoff : Frac) : Frac :=
  let r := levRatio a b
  if Frac.lt r cutoff then ⟨0, 1⟩ else r

/-- The 0.90 score cutoff of src/ocr.py:121. -/
def scoreCutoff : Frac := ⟨9, 10⟩

/-- `hasMatchingPhrase` (src/ocr.py:111-123): scans the cross product of
recognized phrases and search strings, lowercasing the phrase only, and
returns `true` on the first pair whose `Levenshtein.ratio` with
`score_cutoff=0.90` is truthy (a nonzero float). -/
def hasMatchingPhrase (phrases searchStrings : List (List Char)) : Bool :=
  phrases.any fun phrase =>
    searchStrings.any fun string =>
      decide ((lvRatio (pyLower phrase) string scoreCutoff).num ≠ 0)

/-- Python `str.splitlines` restricted to the `\n`, `\r\n` and `\r`
terminators: splits into lines, keeping interior blank lines, and does not
produce a final empty line for a trailing terminator. -/
def splitlines : List Char → List Char → List (List Char)
  | [], acc => if acc.isEmpty then [] else [acc.reverse]
  | '\r' :: '\n' :: rest, acc => acc.reverse :: splitlines rest []
  | '\r' :: rest, acc => acc.reverse :: splitlines rest []
  | '\n' :: rest, acc => acc.reverse :: splitlines rest []
  | c :: rest, acc => splitlines rest (c :: acc)

/-- `getSearchStrings` (src/ocr.py:11-20): reads the watch-list file and
splits it into lines.  The file read is modelled by the file's content. -/
def getSearchStrings (content : List Char) : List (List Char) :=
  splitlines content []

/-! ## Color isolation (`getHSVBounds`, `getIsolatedText`) -/

/-- A pixel with three 8-bit channels. -/
abbrev Pix3 := Nat × Nat × Nat

/-- A single-channel 8-bit image (row-major grid). -/
abbrev Image := List (List Nat)

/-- A three-channel image. -/
abbrev Image3 := List (List Pix3)

/-- `getHSVBounds` (src/ocr.py:22-44).  The two presets return their
`(lower, upper)` HSV arrays.  The wildcard branch executes
`np.array(255,255,255)`, which passes `255` as the `dtype` (and a third
positional argument) instead of building the 3-element bound `[255,255,255]`;
NumPy raises a `TypeError`, modelled as `Except.error`. -/
def getHSVBounds (mode : String) : Except String (Pix3 × Pix3) :=
  match mode with
  | "sextants" => .ok ((102, 57, 180), (103, 61, 255))
  | "equipment" => .ok ((120, 119, 165), (121, 123, 255))
  | _ => .error "TypeError: Cannot interpret given argument as a data type"

/-- Rounded division of a nonnegative dividend, `round(a / b)` with halves up. -/
def rdiv (a b : Nat) : Nat := (2 * a + b) / (2 * b)

/-- Rounded division for a signed dividend, `round(a / b)` with halves toward
positive infinity. -/
def rdivInt (a : Int) (b : Nat) : Int := (2 * a + b) / (2 * (b : Int))

/-- OpenCV `COLOR_BGR2HSV` on one 8-bit pixel: `V = max(B,G,R)`,
`S = round(255 * (V - min) / V)`, and the hue in `0..179` computed from the
dominant channel (priority red, then green, then blue, as in OpenCV). -/
def bgr2hsvPix (p : Pix3) : Pix3 :=
  let (b, g, r) := p
  let v := max b (max g r)
  let mn := min b (min g r)
  let d := v - mn
  let s := if v = 0 then 0 else rdiv (255 * d) v
  let num : Int :=
    if v = r then (g : Int) - (b : Int)
    else if v = g then ((b : Int) - (r : Int)) + 2 * d
    else ((r : Int) - (g : Int)) + 4 * d
  let h : Int := if d = 0 then 0 else rdivInt (30 * num) d
  let h' : Int := if h < 0 then h + 180 else h
  (h'.toNat, s, v)

/-- OpenCV `cvtColor(img, COLOR_BGR2HSV)` applied pixelwise. -/
def cvtBGR2HSV (img : Image3) : Image3 := img.map (List.map bgr2hsvPix)

/-- OpenCV `inRange` on one HSV pixel: 255 when every channel lies inside the
inclusive bounds, 0 otherwise. -/
def inRangePix (p lower upper : Pix3) : Nat :=
  if lower.1 ≤ p.1 ∧ p.1 ≤ upper.1 ∧ lower.2.1 ≤ p.2.1 ∧ p.2.1 ≤ upper.2.1 ∧
      lower.2.2 ≤ p.2.2 ∧ p.2.2 ≤ upper.2.2 then 255 else 0

/-- Lines 71-73 of `getIsolatedText` for arbitrary bounds: convert to HSV,
take the in-range mask, and invert it with `bitwise_not` (255 - v), so that
in-range pixels come out 0 (black) and all others 255 (white). -/
def isolate (img : Image3) (lower upper : Pix3) : Image :=
  (cvtBGR2HSV img).map (List.map fun p => 255 - inRangePix p lower upper)

/-- `getIsolatedText` (src/ocr.py:61-73): `isolate` with the bounds of the
default mode `"equipment"` (the `getHSVBounds()` call in the source).  The
`.error` arm is unreachable for this mode. -/
def getIsolatedText (img : Image3) : Image :=
  match getHSVBounds "equipment" with
  | .ok (lower, upper) => isolate img lower upper
  | .error _ => []

/-! ## Region extraction (`getPhraseROIs`, src/ocr.py:75-96)

The mask is blurred (`GaussianBlur (7,7) 0`), binarized with
`THRESH_BINARY_INV + THRESH_OTSU`, dilated twice with a 12 x 4 rectangular
kernel, and the bounding rectangles of the external contours of the result
are filtered (`h > 20 and w > 200`), after sorting contours by the
rectangle's x.  Each stage is modelled from the OpenCV 8-bit semantics. -/

/-- Width of a row-major grid (length of its first row). -/
def widthOf (m : Image) : Nat := (m.headD []).length

/-- Height of a row-major grid. -/
def heightOf (m : Image) : Nat := m.length

/-- One step of OpenCV `borderInterpolate(i, n, BORDER_REFLECT_101)`:
reflect an out-of-range index without repeating the edge pixel, iterating
with fuel (OpenCV loops until the index is in range). -/
def reflect101Aux (fuel n : Nat) (i : Int) : Nat :=
  match fuel with
  | 0 => 0
  | f + 1 =>
    if i < 0 then reflect101Aux f n (-i)
    else if (n : Int) ≤ i then reflect101Aux f n (2 * ((n : Int) - 1) - i)
    else i.toNat

/-- OpenCV `borderInterpolate` for `BORDER_REFLECT_101` (the
`GaussianBlur` default); a length-1 axis resolves to index 0. -/
def reflect101 (n : Nat) (i : Int) : Nat :=
  if n ≤ 1 then 0 else reflect101Aux 12 n i

/-- Pad a scanline with 3 reflected samples on each side (radius of the 7-tap
Gaussian kernel). -/
def pad3 (l : List Nat) : List Nat :=
  ((List.range 3).map fun (k : Nat) => l.getD (reflect101 l.length ((k : Int) - 3)) 0) ++ l ++
  ((List.range 3).map fun (k : Nat) => l.getD (reflect101 l.length ((l.length : Int) + (k : Int))) 0)

/-- The fixed 7-tap kernel OpenCV uses for `GaussianBlur(. , (7,7), 0)` on
8-bit data, scaled by 128: `[4,14,28,36,28,14,4] / 128`. -/
def dot7 (l : List Nat) : Nat :=
  4 * l.getD 0 0 + 14 * l.getD 1 0 + 28 * l.getD 2 0 + 36 * l.getD 3 0 +
  28 * l.getD 4 0 + 14 * l.getD 5 0 + 4 * l.getD 6 0

/-- 1-D convolution of a padded scanline with the 7-tap kernel, sliding the
window by one position per output sample; the fuel (amply supplied by
`hconv`) only drives the recursion. -/
def hconvFuel : Nat → List Nat → List Nat
  | 0, _ => []
  | fu + 1, a :: b :: c :: d :: e :: f :: g :: t =>
    (4 * a + 14 * b + 28 * c + 36 * d + 28 * e + 14 * f + 4 * g) ::
      hconvFuel fu (b :: c :: d :: e :: f :: g :: t)
  | _ + 1, _ => []

/-- 1-D convolution of a padded scanline with the 7-tap kernel. -/
def hconv (l : List Nat) : List Nat := hconvFuel l.length l

/-- Pad and convolve one scanline. -/
def hrow (l : List Nat) : List Nat := hconv (pad3 l)

/-- Peel `w` columns off a grid: column `k` collects the `k`-th entry of every
row (0 where a row is exhausted, which rectangular grids never hit). -/
def transposeGo : Nat → Image → Image
  | 0, _ => []
  | w + 1, m => (m.map fun r => r.headD 0) :: transposeGo w (m.map List.tail)

/-- Transpose of a rectangular grid. -/
def transposeR (m : Image) : Image := transposeGo (widthOf m) m

/-- `cv.GaussianBlur(mask, (7,7), 0)`: separable passes with the exact
dyadic kernel and a single final rounding by the total weight 128 * 128. -/
def gaussianBlur (m : Image) : Image :=
  let hm := m.map hrow
  let vm := transposeR ((transposeR hm).map hrow)
  vm.map (List.map fun s => (s + 8192) / 16384)

/-- Loop state of OpenCV's Otsu threshold search. -/
structure OtsuState where
  q1 : Frac
  mu1 : Frac
  maxSigma : Frac
  maxVal : Nat

/-- `FLT_EPSILON`, the guard constant of the Otsu loop. -/
def otsuEps : Frac := ⟨1, 2 ^ 23⟩

/-- One iteration of OpenCV `getThreshVal_Otsu_8u` over histogram bin
`ip = (i, p_i)`: classes with a vanishing or full first-class weight are
skipped; otherwise the between-class variance is compared to the maximum. -/
def otsuStep (mu : Frac) (st : OtsuState) (ip : Nat × Frac) : OtsuState :=
  let mu1a := st.mu1.mul st.q1
  let q1 := st.q1.add ip.2
  let q2 := (Frac.ofNat 1).sub q1
  if Frac.lt (q1.fmin q2) otsuEps ∨ Frac.lt ((Frac.ofNat 1).sub otsuEps) (q1.fmax q2) then
    { st with mu1 := mu1a, q1 := q1 }
  else
    let mu1 := (mu1a.add ((Frac.ofNat ip.1).mul ip.2)).div q1
    let mu2 := (mu.sub (q1.mul mu1)).div q2
    let sigma := (q1.mul q2).mul ((mu1.sub mu2).mul (mu1.sub mu2))
    if Frac.lt st.maxSigma sigma then ⟨q1, mu1, sigma, ip.1⟩
    else { st with mu1 := mu1, q1 := q1 }

/-- Histogram entry `h[v]` of a grid: the number of pixels with value `v`,
counted row by row. -/
def histAt (m : Image) (v : Nat) : Nat := (m.map fun row => row.count v).sum

/-- The number of pixels of a grid, `size.width * size.height`. -/
def pixCount (m : Image) : Nat := (m.map List.length).sum

/-- Sum of a list of fractions.  The conditional has identical branches — it
only forces the running sum to numerals so that kernel evaluation of the
loop stays iterative — and is dropped by `fracSum_eq_foldl`. -/
def fracSum : Frac → List Frac → Frac
  | acc, [] => acc
  | acc, x :: rest =>
    let s := acc.add x
    if s.num < s.den then fracSum s rest else fracSum s rest

/-- The Otsu loop over the histogram bins, `List.foldl (otsuStep mu)`.  The
conditional has identical branches — it only forces the intermediate state
to numerals so that kernel evaluation stays iterative — and is dropped by
`otsuFold_eq_foldl`. -/
def otsuFold (mu : Frac) : OtsuState → List (Nat × Frac) → OtsuState
  | st, [] => st
  | st, ip :: rest =>
    let s := otsuStep mu st ip
    if s.q1.num * s.mu1.num * s.maxSigma.num <
        s.q1.den * s.mu1.den * s.maxSigma.den + (s.maxVal : Int) then
      otsuFold mu s rest
    else otsuFold mu s rest

/-- OpenCV's Otsu threshold of an 8-bit image (exact rational arithmetic in
place of the library's doubles; an empty image degenerates to 0). -/
def otsuThresh (m : Image) : Nat :=
  let scale : Frac := (Frac.ofNat 1).div (Frac.ofNat (pixCount m))
  let mu : Frac := fracSum ⟨0, 1⟩ ((List.range 256).map fun i =>
    (Frac.ofNat i).mul (scale.mul (Frac.ofNat (histAt m i))))
  let bins := (List.range 256).map fun i => (i, scale.mul (Frac.ofNat (histAt m i)))
  (otsuFold mu ⟨⟨0, 1⟩, ⟨0, 1⟩, ⟨0, 1⟩, 0⟩ bins).maxVal

/-- `cv.threshold(. , 0, 255, THRESH_BINARY_INV)` at threshold `t`:
pixels above `t` go to 0, the rest to the max value 255. -/
def threshBinInv (m : Image) (t : Nat) : Image :=
  m.map (List.map fun v => if t < v then 0 else 255)

/-- Maximum of a list of pixel values (dilation treats samples outside the
image as contributing nothing, the identity 0 for nonnegative data). -/
def listMax (l : List Nat) : Nat := l.foldl max 0

/-- Slide a window of `w` samples along a scanline, emitting each window's
maximum; the fuel fixes the output length. -/
def slideMax (w : Nat) : Nat → List Nat → List Nat
  | 0, _ => []
  | fu + 1, l => listMax (l.take w) :: slideMax w fu l.tail

/-- Maximum over the inclusive window `[x - a, x + b]` of a scanline for
every position `x`: zero padding realizes the window clipping at the
borders (0 is the identity of `max` on pixel values). -/
def rowMaxWin (a b : Nat) (l : List Nat) : List Nat :=
  slideMax (a + b + 1) l.length (List.replicate a 0 ++ l ++ List.replicate b 0)

/-- `cv.dilate` with the 12 x 4 `MORPH_RECT` element, anchor (6,2): the
window maximum over offsets `[-5..6]` horizontally and `[-1..2]`
vertically, as separable passes. -/
def dilate (m : Image) : Image :=
  let hm := m.map (rowMaxWin 5 6)
  transposeR ((transposeR hm).map (rowMaxWin 1 2))

/-- Blur, Otsu-binarize (inverted) and dilate twice: the image whose external
contours `getPhraseROIs` extracts (src/ocr.py:81-86). -/
def processedMask (mask : Image) : Image :=
  let blurred := gaussianBlur mask
  let thresh := threshBinInv blurred (otsuThresh blurred)
  dilate (dilate thresh)

/-- A horizontal run of pixels: `(y, xStart, xEnd)`, bounds inclusive. -/
abbrev Run := Nat × Nat × Nat

/-- Maximal runs of a scanline whose pixels satisfy `pred`, with the current
index and the start of the open run as accumulators. -/
def rowRunsAux (pred : Nat → Bool) : List Nat → Nat → Option Nat → List (Nat × Nat)
  | [], _, none => []
  | [], i, some s => [(s, i - 1)]
  | v :: t, i, none =>
    if pred v then rowRunsAux pred t (i + 1) (some i) else rowRunsAux pred t (i + 1) none
  | v :: t, i, some s =>
    if pred v then rowRunsAux pred t (i + 1) (some s)
    else (s, i - 1) :: rowRunsAux pred t (i + 1) none

/-- Maximal runs of a scanline whose pixels satisfy `pred`. -/
def rowRuns (pred : Nat → Bool) (row : List Nat) : List (Nat × Nat) :=
  rowRunsAux pred row 0 none

/-- All runs of a grid in raster order. -/
def allRuns (pred : Nat → Bool) (m : Image) : List Run :=
  (m.enum.map fun yr => (rowRuns pred yr.2).map fun ab => (yr.1, ab.1, ab.2)).flatten

/-- Root lookup in a union-find parent list, with fuel (the forest built by
`ufUnion` is acyclic, so fuel `n` always reaches the root). -/
def ufFind (parent : List Nat) : Nat → Nat → Nat
  | 0, i => i
  | f + 1, i => let p := parent.getD i i; if p = i then i else ufFind parent f p

/-- Union of the classes of `i` and `j` (links root to root). -/
def ufUnion (n : Nat) (parent : List Nat) (i j : Nat) : List Nat :=
  let ri := ufFind parent n i
  let rj := ufFind parent n j
  if ri = rj then parent else parent.set ri rj

/-- Whether run `v` (one row below `u`) touches run `u`; `diag` allows the
diagonal contact of 8-connectivity, the connectivity OpenCV uses for
foreground, while background components are 4-connected. -/
def runsAdjacent (diag : Bool) (u v : Run) : Bool :=
  let s := if diag then 1 else 0
  v.1 = u.1 + 1 && v.2.1 ≤ u.2.2 + s && u.2.1 ≤ v.2.2 + s

/-- Union the classes of every adjacent pair of runs, walking the pair list.
The conditional has identical branches — it only forces the parent list to
numerals so that kernel evaluation stays iterative — and is dropped by
`unionLoop_eq_foldl`. -/
def unionLoop (diag : Bool) (n : Nat) :
    List Nat → List ((Nat × Run) × (Nat × Run)) → List Nat
  | par, [] => par
  | par, p :: rest =>
    let par' := if runsAdjacent diag p.1.2 p.2.2 then ufUnion n par p.1.1 p.2.1 else par
    if par'.sum ≤ n * n then unionLoop diag n par' rest else unionLoop diag n par' rest

/-- Every run of the grid together with the union-find root of its connected
component, in raster order. -/
def labeledRuns (pred : Nat → Bool) (diag : Bool) (m : Image) : List (Run × Nat) :=
  let runs := allRuns pred m
  let n := runs.length
  let idx := runs.enum
  let parent := unionLoop diag n (List.range n) (idx.flatMap fun iu => idx.map fun jv => (iu, jv))
  idx.map fun iu => (iu.2, ufFind parent n iu.1)

/-- Connected components of the pixels satisfying `pred`, each as its list of
runs in raster order; components ordered by first appearance. -/
def compsOf (pred : Nat → Bool) (diag : Bool) (m : Image) : List (List Run) :=
  let lr := labeledRuns pred diag m
  let distinct := (lr.map (·.2)).foldl (fun acc r => if r ∈ acc then acc else acc ++ [r]) []
  distinct.map fun r => (lr.filter fun p => p.2 = r).map (·.1)

/-- The 4-connected background (zero-pixel) runs of the grid with their
component roots. -/
def bgLabeled (m : Image) : List (Run × Nat) := labeledRuns (fun v => v == 0) false m

/-- Roots of the background components that touch the image border — the
"outer" background a top-level contour borders on. -/
def bgOuterRoots (m : Image) : List Nat :=
  (bgLabeled m).filterMap fun p =>
    if p.1.1 = 0 ∨ p.1.1 + 1 = heightOf m ∨ p.1.2.1 = 0 ∨ p.1.2.2 + 1 = widthOf m then
      some p.2
    else none

/-- Whether a foreground component is an outermost (`RETR_EXTERNAL`)
contour: the background pixel to the left of its raster-first pixel — the
point where the border following of `findContours` starts — belongs to the
outer background (or is the image frame itself). -/
def isExternal (m : Image) (c : List Run) : Bool :=
  match c with
  | [] => false
  | (y, a, _) :: _ =>
    if a = 0 then true
    else
      match (bgLabeled m).find? (fun p =>
          p.1.1 == y && p.1.2.1 ≤ a - 1 && a - 1 ≤ p.1.2.2) with
      | some p => p.2 ∈ bgOuterRoots m
      | none => true

/-- `cv.findContours(. , RETR_EXTERNAL, CHAIN_APPROX_SIMPLE)`: the outermost
contours, each represented by the runs of the 8-connected component it
bounds (its bounding rectangle is that of the component), in raster order
of discovery. -/
def findContoursExt (m : Image) : List (List Run) :=
  (compsOf (fun v => !(v == 0)) true m).filter (isExternal m)

/-- An axis-aligned rectangle, `(x, y, w, h)` as `cv.boundingRect` yields. -/
structure Rect where
  x : Nat
  y : Nat
  w : Nat
  h : Nat
deriving DecidableEq, Repr

/-- `cv.boundingRect` of a contour: the tight axis-aligned box of its runs. -/
def boundingRect (c : List Run) : Rect :=
  match c with
  | [] => ⟨0, 0, 0, 0⟩
  | (y0, a0, b0) :: t =>
    let xmin := t.foldl (fun acc r => min acc r.2.1) a0
    let xmax := t.foldl (fun acc r => max acc r.2.2) b0
    let ymin := t.foldl (fun acc r => min acc r.1) y0
    let ymax := t.foldl (fun acc r => max acc r.1) y0
    ⟨xmin, ymin, xmax + 1 - xmin, ymax + 1 - ymin⟩

/-- Numpy slicing `mask[y:y+h, x:x+w]` (clamping at the array edges). -/
def cropRect (m : Image) (r : Rect) : Image :=
  ((m.drop r.y).take r.h).map fun row => (row.drop r.x).take r.w

/-- The key order of `sorted(cnts, key=lambda x: cv.boundingRect(x)[0])`. -/
def contourLE (c1 c2 : List Run) : Prop :=
  (boundingRect c1).x ≤ (boundingRect c2).x

instance : DecidableRel contourLE := fun c1 c2 =>
  Nat.decLe (boundingRect c1).x (boundingRect c2).x

/-- `sorted(cnts, key=lambda x: cv.boundingRect(x)[0])`: Python's stable sort
by the rectangle's x.  A stable sort is determined by its comparator, so the
stable `insertionSort` computes the same list as the library's Timsort. -/
def sortedContours (m : Image) : List (List Run) :=
  (findContoursExt m).insertionSort contourLE

/-- `getPhraseROIs`' output on a given mask (src/ocr.py:80-96): the loop
appends the mask crop of every sorted contour whose bounding rectangle
passes `h > 20 and w > 200`. -/
def extractRegions (mask : Image) : List Image :=
  (sortedContours (processedMask mask)).foldl (fun rois c =>
    let r := boundingRect c
    if 20 < r.h ∧ 200 < r.w then rois ++ [cropRect mask r] else rois) []

/-- The bounding rectangles of the regions `extractRegions` emits, in
emission order. -/
def regionRects (mask : Image) : List Rect :=
  ((sortedContours (processedMask mask)).map boundingRect).filter fun r =>
    decide (20 < r.h ∧ 200 < r.w)

/-- `getPhraseROIs` (src/ocr.py:75-96) on a captured frame. -/
def getPhraseROIs (img : Image3) : List Image :=
  extractRegions (getIsolatedText img)

/-! ## Orchestration (`getPhraseStrings`, `runOCR`) -/

/-- `getPhraseStrings` (src/ocr.py:98-109): run the text-recognition
collaborator on every extracted region, in order.  `recognize` stands for
`pytesseract.image_to_string`. -/
def getPhraseStrings (img : Image3) (recognize : Image → List Char) : List (List Char) :=
  (getPhraseROIs img).map recognize

/-- The Python `for` loop of `getPhraseStrings` under a recognizer that can
raise: an exception aborts the loop and propagates (there is no handler in
the source), so the whole call yields the first error. -/
def recognizeRegions (rois : List Image) (recognize : Image → Except String (List Char)) :
    Except String (List (List Char)) :=
  rois.mapM recognize

/-- A reified `playsound(clip, block=...)` call. -/
structure AlertCall where
  clip : String
  nonBlocking : Bool
deriving DecidableEq, Repr

/-- `runOCR` (src/ocr.py:125-130) on a captured frame: recognize the phrases
of every region and fire one non-blocking alert when the watch-list matches;
the returned list holds the `playsound` calls the invocation makes. -/
def runOCR (img : Image3) (recognize : Image → List Char)
    (searchStrings : List (List Char)) : List AlertCall :=
  if hasMatchingPhrase (getPhraseStrings img recognize) searchStrings then
    [{ clip := "quiet_alert.mp3", nonBlocking := true }]
  else []

/-! ## Auxiliary predicates and concrete inputs used in the analysis -/

instance : IsTotal (List Run) contourLE :=
  ⟨fun c1 c2 => Nat.le_total (boundingRect c1).x (boundingRect c2).x⟩

instance : IsTrans (List Run) contourLE :=
  ⟨fun _ _ _ h1 h2 => Nat.le_trans h1 h2⟩

/-- The in-range condition of `inRangePix` as a proposition: every HSV
channel lies inside the inclusive bounds. -/
def inBoundsHSV (p lower upper : Pix3) : Prop :=
  lower.1 ≤ p.1 ∧ p.1 ≤ upper.1 ∧ lower.2.1 ≤ p.2.1 ∧ p.2.1 ≤ upper.2.1 ∧
    lower.2.2 ≤ p.2.2 ∧ p.2.2 ≤ upper.2.2

instance (p lower upper : Pix3) : Decidable (inBoundsHSV p lower upper) := by
  unfold inBoundsHSV
  infer_instance

/-- Column profile of a synthetic 210x23 mask: a full-width black band on
rows 3..19 (so the only text blob is 210 wide and 17 tall), white
elsewhere. -/
def cexProfile : List Nat :=
  (List.range 23).map fun y => if 3 ≤ y ∧ y ≤ 19 then 0 else 255

/-- The synthetic mask itself: 23 constant rows of width 210. -/
def cexMask : Image := cexProfile.map fun v => List.replicate 210 v

/-! ## Toolkit lemmas -/

theorem egcd_one_left (n : Nat) : egcd 128 1 n = 1 := by
  match n with
  | 0 => rfl
  | 1 => rfl
  | k + 2 =>
    show egcd 127 (k + 2) (1 % (k + 2)) = 1
    rw [Nat.mod_eq_of_lt (by omega)]
    show egcd 126 1 ((k + 2) % 1) = 1
    rw [Nat.mod_one]
    rfl

theorem egcd_zero_left (n : Nat) : egcd 128 0 n = n := by
  match n with
  | 0 => rfl
  | k + 1 =>
    show egcd 127 (k + 1) (0 % (k + 1)) = k + 1
    rw [Nat.zero_mod]
    rfl

theorem egcd_self (n : Nat) : egcd 128 n n = n := by
  match n with
  | 0 => rfl
  | k + 1 =>
    show egcd 127 (k + 1) ((k + 1) % (k + 1)) = k + 1
    rw [Nat.mod_self]
    rfl

/-- Normalizing a zero fraction with positive denominator gives `⟨0, 1⟩`. -/
theorem Frac.norm_zero_num {d : Int} (hd : 0 < d) : Frac.norm ⟨0, d⟩ = ⟨0, 1⟩ := by
  have habs : (d.natAbs : Int) = d := Int.natAbs_of_nonneg (le_of_lt hd)
  have hne : d.natAbs ≠ 0 := by
    intro h
    rw [h] at habs
    omega
  simp only [Frac.norm, Int.natAbs_zero, egcd_zero_left]
  rw [if_neg (by exact_mod_cast hne)]
  rw [habs, Int.zero_ediv, Int.ediv_self (by omega)]

/-- Normalizing `⟨n, n⟩` with positive `n` gives `⟨1, 1⟩`. -/
theorem Frac.norm_one_diag {n : Int} (hn : 0 < n) : Frac.norm ⟨n, n⟩ = ⟨1, 1⟩ := by
  have habs : (n.natAbs : Int) = n := Int.natAbs_of_nonneg (le_of_lt hn)
  have hne : n.natAbs ≠ 0 := by
    intro h
    rw [h] at habs
    omega
  simp only [Frac.norm, egcd_self]
  rw [if_neg (by exact_mod_cast hne)]
  rw [habs, Int.ediv_self (by omega)]

/-- `scale * 0 = ⟨0, 1⟩` for any fraction with positive denominator. -/
theorem Frac.mul_zero_of_den_pos (a : Frac) (ha : 0 < a.den) :
    a.mul (Frac.ofNat 0) = ⟨0, 1⟩ := by
  simp only [Frac.mul, Frac.ofNat]
  rw [show a.num * ((0 : Nat) : Int) = 0 by simp, show a.den * 1 = a.den by ring]
  exact Frac.norm_zero_num ha

theorem reflect101Aux_lt (fuel n : Nat) (i : Int) (hn : 2 ≤ n) :
    reflect101Aux fuel n i < n := by
  induction fuel generalizing i with
  | zero => simpa [reflect101Aux] using by omega
  | succ f ih =>
    simp only [reflect101Aux]
    split
    · exact ih _
    · split
      · exact ih _
      · rename_i h1 h2
        omega

theorem reflect101_lt (n : Nat) (i : Int) (hn : 1 ≤ n) : reflect101 n i < n := by
  unfold reflect101
  split
  · omega
  · exact reflect101Aux_lt 12 n i (by omega)

theorem getD_replicate_of_lt {w j : Nat} {c : Nat} (h : j < w) :
    (List.replicate w c).getD j 0 = c := by
  rw [List.getD_eq_getElem _ _ (by simpa using h), List.getElem_replicate]

theorem headD_replicate_pos {α : Type} {w : Nat} {c : α} (d : α) (h : 1 ≤ w) :
    (List.replicate w c).headD d = c := by
  match w, h with
  | k + 1, _ => rfl

theorem tail_replicate_poly {α : Type} (w : Nat) (c : α) :
    (List.replicate w c).tail = List.replicate (w - 1) c := by
  match w with
  | 0 => rfl
  | k + 1 => rfl

theorem map3_const (f : Nat → Nat) (c : Nat) (h : ∀ k, k < 3 → f k = c) :
    (List.range 3).map f = List.replicate 3 c := by
  show [f 0, f 1, f 2] = [c, c, c]
  rw [h 0 (by omega), h 1 (by omega), h 2 (by omega)]

theorem pad3_replicate {w : Nat} (c : Nat) (hw : 1 ≤ w) :
    pad3 (List.replicate w c) = List.replicate (w + 6) c := by
  unfold pad3
  rw [List.length_replicate]
  rw [map3_const _ c fun k _ => getD_replicate_of_lt (reflect101_lt w _ hw)]
  rw [map3_const _ c fun k _ => getD_replicate_of_lt (reflect101_lt w _ hw)]
  rw [← List.replicate_add, ← List.replicate_add]
  congr 1
  omega

theorem hconvFuel_replicate (c : Nat) :
    ∀ w, hconvFuel (w + 6) (List.replicate (w + 6) c) = List.replicate w (128 * c) := by
  intro w
  induction w with
  | zero => rfl
  | succ k ih =>
    have hsplit : List.replicate (k + 1 + 6) c =
        c :: c :: c :: c :: c :: c :: c :: List.replicate k c := by
      simp [List.replicate_succ]
    rw [hsplit]
    show (4 * c + 14 * c + 28 * c + 36 * c + 28 * c + 14 * c + 4 * c) ::
        hconvFuel (k + 6) (c :: c :: c :: c :: c :: c :: List.replicate k c) = _
    have hback : c :: c :: c :: c :: c :: c :: List.replicate k c = List.replicate (k + 6) c := by
      simp [List.replicate_succ]
    rw [hback, ih]
    have : 4 * c + 14 * c + 28 * c + 36 * c + 28 * c + 14 * c + 4 * c = 128 * c := by ring
    rw [this]
    rfl

theorem hrow_replicate (w c : Nat) :
    hrow (List.replicate w c) = List.replicate w (128 * c) := by
  match w with
  | 0 => rfl
  | k + 1 =>
    show hconv (pad3 (List.replicate (k + 1) c)) = _
    rw [pad3_replicate c (by omega)]
    show hconvFuel (List.replicate (k + 1 + 6) c).length (List.replicate (k + 1 + 6) c) = _
    rw [List.length_replicate]
    exact hconvFuel_replicate c (k + 1)

theorem transposeGo_banded (w' : Nat) :
    ∀ (L : List Nat) (w : Nat), w' ≤ w →
      transposeGo w' (L.map fun v => List.replicate w v) = List.replicate w' L := by
  induction w' with
  | zero => intro L w _; rfl
  | succ k ih =>
    intro L w h
    show ((L.map fun v => List.replicate w v).map fun r => r.headD 0) ::
        transposeGo k ((L.map fun v => List.replicate w v).map List.tail) = _
    rw [List.map_map, List.map_map]
    have h1 : L.map ((fun r => List.headD r 0) ∘ fun v => List.replicate w v) = L := by
      rw [show ((fun r => List.headD r 0) ∘ fun v => List.replicate w v) =
          fun v => (List.replicate w v).headD 0 from rfl]
      rw [List.map_congr_left fun v _ => headD_replicate_pos 0 (by omega)]
      exact List.map_id L
    have h2 : L.map (List.tail ∘ fun v => List.replicate w v) =
        L.map fun v => List.replicate (w - 1) v := by
      exact List.map_congr_left fun v _ => tail_replicate_poly w v
    rw [h1, h2, ih L (w - 1) (by omega)]
    rfl

theorem transposeGo_rows (w : Nat) (w' : Nat) :
    ∀ q : List Nat, w' ≤ q.length →
      transposeGo w' (List.replicate w q) = (q.take w').map fun v => List.replicate w v := by
  induction w' with
  | zero => intro q _; simp [transposeGo]
  | succ k ih =>
    intro q h
    match q, h with
    | v :: q', h =>
      show ((List.replicate w (v :: q')).map fun r => r.headD 0) ::
          transposeGo k ((List.replicate w (v :: q')).map List.tail) = _
      rw [List.map_replicate, List.map_replicate]
      show List.replicate w v :: transposeGo k (List.replicate w q') = _
      rw [ih q' (by simpa using h)]
      rfl

theorem transposeR_banded (L : List Nat) (w : Nat) (hL : L ≠ []) :
    transposeR (L.map fun v => List.replicate w v) = List.replicate w L := by
  match L, hL with
  | v :: L', _ =>
    show transposeGo (widthOf ((v :: L').map fun v => List.replicate w v)) _ = _
    have hwid : widthOf ((v :: L').map fun v => List.replicate w v) = w := by
      show (List.replicate w v).length = w
      exact List.length_replicate w v
    rw [hwid]
    exact transposeGo_banded w (v :: L') w le_rfl

theorem transposeR_rows (q : List Nat) (w : Nat) (hw : 1 ≤ w) :
    transposeR (List.replicate w q) = q.map fun v => List.replicate w v := by
  show transposeGo (widthOf (List.replicate w q)) _ = _
  have hwid : widthOf (List.replicate w q) = q.length := by
    unfold widthOf
    rw [headD_replicate_pos [] hw]
  rw [hwid, transposeGo_rows w q.length q le_rfl, List.take_length]

theorem le_listMax {l : List Nat} : ∀ {x}, x ∈ l → x ≤ listMax l := by
  have h : ∀ (acc : Nat) (l : List Nat), (∀ x ∈ l, x ≤ l.foldl max acc) ∧ acc ≤ l.foldl max acc := by
    intro acc l
    induction l generalizing acc with
    | nil => exact ⟨by simp, le_rfl⟩
    | cons y t ih =>
      refine ⟨?_, ?_⟩
      · intro x hx
        rcases List.mem_cons.mp hx with h1 | h1
        · subst h1
          exact le_trans (le_max_right acc x) (ih (max acc x)).2
        · exact (ih (max acc y)).1 x h1
      · exact le_trans (le_max_left acc y) (ih (max acc y)).2
  intro x hx
  exact (h 0 l).1 x hx

theorem listMax_le {l : List Nat} {v : Nat} (h : ∀ x ∈ l, x ≤ v) : listMax l ≤ v := by
  have haux : ∀ (acc : Nat) (l : List Nat), acc ≤ v → (∀ x ∈ l, x ≤ v) → l.foldl max acc ≤ v := by
    intro acc l
    induction l generalizing acc with
    | nil => intro ha _; exact ha
    | cons y t ih =>
      intro ha hl
      exact ih (max acc y) (max_le ha (hl y (by simp))) fun x hx => hl x (by simp [hx])
  exact haux 0 l (Nat.zero_le v) h

theorem listMax_eq_of_mem {l : List Nat} {v : Nat} (hmem : v ∈ l) (hle : ∀ x ∈ l, x ≤ v) :
    listMax l = v :=
  le_antisymm (listMax_le hle) (le_listMax hmem)

/-- Sliding maximum over a run of `v` padded with zeros on the right. -/
theorem slideMax_run (k v b : Nat) :
    ∀ (fuel m : Nat), fuel ≤ m →
      slideMax (k + 1) fuel (List.replicate m v ++ List.replicate b 0) = List.replicate fuel v := by
  intro fuel
  induction fuel with
  | zero => intro m _; rfl
  | succ fu ih =>
    intro m h
    match m, h with
    | m' + 1, h =>
      simp only [slideMax]
      have hmem : v ∈ (List.replicate (m' + 1) v ++ List.replicate b 0).take (k + 1) := by
        rw [show List.replicate (m' + 1) v ++ List.replicate b 0 =
            v :: (List.replicate m' v ++ List.replicate b 0) from rfl]
        simp [List.take_succ_cons]
      have hle : ∀ x ∈ (List.replicate (m' + 1) v ++ List.replicate b 0).take (k + 1), x ≤ v := by
        intro x hx
        have hx' := List.mem_of_mem_take hx
        rcases List.mem_append.mp hx' with h1 | h1
        · rw [List.eq_of_mem_replicate h1]
        · rw [List.eq_of_mem_replicate h1]
          exact Nat.zero_le v
      rw [listMax_eq_of_mem hmem hle]
      have htail : (List.replicate (m' + 1) v ++ List.replicate b 0).tail =
          List.replicate m' v ++ List.replicate b 0 := rfl
      rw [htail, ih m' (by omega)]
      rfl

/-- Sliding maximum while consuming the zero prefix of the padding. -/
theorem slideMax_pad (a k v b : Nat) (hak : a ≤ k) :
    ∀ (fuel : Nat) (p m : Nat), p ≤ a → fuel ≤ m → 1 ≤ m →
      slideMax (k + 1) fuel (List.replicate p 0 ++ (List.replicate m v ++ List.replicate b 0)) =
        List.replicate fuel v := by
  intro fuel
  induction fuel with
  | zero => intro p m _ _ _; rfl
  | succ fu ih =>
    intro p m hp h hm
    match p with
    | 0 =>
      show slideMax (k + 1) (fu + 1) (List.replicate m v ++ List.replicate b 0) = _
      exact slideMax_run k v b (fu + 1) m h
    | p' + 1 =>
      simp only [slideMax]
      have hmem : v ∈ (List.replicate (p' + 1) 0 ++
          (List.replicate m v ++ List.replicate b 0)).take (k + 1) := by
        rw [List.take_append_eq_append_take, List.length_replicate]
        refine List.mem_append.mpr (Or.inr ?_)
        obtain ⟨j, hj⟩ : ∃ j, k + 1 - (p' + 1) = j + 1 := ⟨k - (p' + 1), by omega⟩
        rw [hj]
        match m, hm with
        | m'' + 1, _ =>
          rw [show List.replicate (m'' + 1) v ++ List.replicate b 0 =
              v :: (List.replicate m'' v ++ List.replicate b 0) from rfl]
          simp [List.take_succ_cons]
      have hle : ∀ x ∈ (List.replicate (p' + 1) 0 ++
          (List.replicate m v ++ List.replicate b 0)).take (k + 1), x ≤ v := by
        intro x hx
        have hx' := List.mem_of_mem_take hx
        rcases List.mem_append.mp hx' with h1 | h1
        · rw [List.eq_of_mem_replicate h1]; exact Nat.zero_le v
        · rcases List.mem_append.mp h1 with h2 | h2
          · rw [List.eq_of_mem_replicate h2]
          · rw [List.eq_of_mem_replicate h2]; exact Nat.zero_le v
      rw [listMax_eq_of_mem hmem hle]
      have htail : (List.replicate (p' + 1) 0 ++
          (List.replicate m v ++ List.replicate b 0)).tail =
          List.replicate p' 0 ++ (List.replicate m v ++ List.replicate b 0) := rfl
      rw [htail, ih p' m (by omega) (by omega) hm]
      rfl

/-- The window maximum of a constant scanline is that scanline. -/
theorem rowMaxWin_replicate (a b w v : Nat) :
    rowMaxWin a b (List.replicate w v) = List.replicate w v := by
  match w with
  | 0 => rfl
  | w' + 1 =>
    unfold rowMaxWin
    rw [List.length_replicate, List.append_assoc]
    exact slideMax_pad a (a + b) v b (by omega) (w' + 1) a (w' + 1) le_rfl le_rfl (by omega)

theorem slideMax_length (w : Nat) : ∀ (fu : Nat) (l : List Nat), (slideMax w fu l).length = fu := by
  intro fu
  induction fu with
  | zero => intro l; rfl
  | succ k ih =>
    intro l
    simp only [slideMax, List.length_cons, ih]

theorem rowMaxWin_length (a b : Nat) (l : List Nat) : (rowMaxWin a b l).length = l.length := by
  unfold rowMaxWin
  exact slideMax_length _ _ _

/-- `GaussianBlur` on an image with constant rows acts on the column profile. -/
theorem gaussianBlur_banded (L : List Nat) (w : Nat) (hw : 1 ≤ w) :
    gaussianBlur (L.map fun v => List.replicate w v) =
      ((hrow (L.map fun v => 128 * v)).map fun s => (s + 8192) / 16384).map
        fun v => List.replicate w v := by
  match L with
  | [] =>
    show gaussianBlur [] = _
    rfl
  | v0 :: L' =>
    unfold gaussianBlur
    have h1 : ((v0 :: L').map fun v => List.replicate w v).map hrow =
        ((v0 :: L').map fun v => 128 * v).map fun v => List.replicate w v := by
      rw [List.map_map, List.map_map]
      exact List.map_congr_left fun v _ => hrow_replicate w v
    dsimp only
    rw [h1]
    rw [transposeR_banded ((v0 :: L').map fun v => 128 * v) w (by simp)]
    rw [List.map_replicate]
    rw [transposeR_rows _ w hw]
    rw [List.map_map, List.map_map]
    exact List.map_congr_left fun s _ => List.map_replicate

/-- Inverted binary threshold on an image with constant rows. -/
theorem threshBinInv_banded (L : List Nat) (w t : Nat) :
    threshBinInv (L.map fun v => List.replicate w v) t =
      (L.map fun v => if t < v then 0 else 255).map fun v => List.replicate w v := by
  unfold threshBinInv
  rw [List.map_map, List.map_map]
  exact List.map_congr_left fun v _ => List.map_replicate

/-- Dilation on an image with constant rows acts on the column profile. -/
theorem dilate_banded (L : List Nat) (w : Nat) (hL : L ≠ []) (hw : 1 ≤ w) :
    dilate (L.map fun v => List.replicate w v) =
      (rowMaxWin 1 2 L).map fun v => List.replicate w v := by
  unfold dilate
  have h1 : (L.map fun v => List.replicate w v).map (rowMaxWin 5 6) =
      L.map fun v => List.replicate w v := by
    rw [List.map_map]
    exact List.map_congr_left fun v _ => rowMaxWin_replicate 5 6 w v
  dsimp only
  rw [h1, transposeR_banded L w hL, List.map_replicate, transposeR_rows _ w hw]

theorem histAt_banded (L : List Nat) (w i : Nat) :
    histAt (L.map fun v => List.replicate w v) i = w * L.count i := by
  unfold histAt
  rw [List.map_map]
  induction L with
  | nil => simp
  | cons u t ih =>
    rw [List.map_cons, List.sum_cons, ih, List.count_cons]
    show (List.replicate w u).count i + _ = _
    rw [List.count_replicate]
    rcases Decidable.em (u = i) with h | h
    · subst h
      simp
      ring
    · have h1 : (u == i) = false := by simpa using h
      rw [h1]
      simp

theorem pixCount_banded (L : List Nat) (w : Nat) :
    pixCount (L.map fun v => List.replicate w v) = w * L.length := by
  unfold pixCount
  rw [List.map_map]
  induction L with
  | nil => simp
  | cons u t ih =>
    rw [List.map_cons, List.sum_cons, ih, List.length_cons]
    show (List.replicate w u).length + _ = _
    rw [List.length_replicate]
    ring

/-- The Otsu threshold of an image with constant rows, in terms of its column
profile. -/
theorem otsuThresh_banded (L : List Nat) (w : Nat) :
    otsuThresh (L.map fun v => List.replicate w v) =
      (otsuFold
        (fracSum ⟨0, 1⟩ ((List.range 256).map fun i =>
          (Frac.ofNat i).mul (((Frac.ofNat 1).div (Frac.ofNat (w * L.length))).mul
            (Frac.ofNat (w * L.count i)))))
        ⟨⟨0, 1⟩, ⟨0, 1⟩, ⟨0, 1⟩, 0⟩
        ((List.range 256).map fun i => (i, ((Frac.ofNat 1).div (Frac.ofNat (w * L.length))).mul
            (Frac.ofNat (w * L.count i))))).maxVal := by
  unfold otsuThresh
  dsimp only
  simp only [histAt_banded, pixCount_banded]

theorem otsuFold_append (mu : Frac) (st : OtsuState) (l1 l2 : List (Nat × Frac)) :
    otsuFold mu st (l1 ++ l2) = otsuFold mu (otsuFold mu st l1) l2 := by
  induction l1 generalizing st with
  | nil => rfl
  | cons b t ih =>
    show otsuFold mu st (b :: (t ++ l2)) = _
    simp only [otsuFold]
    rw [ite_self, ite_self, ih]

theorem otsuStep_zeroBin (mu : Frac) (i : Nat) :
    otsuStep mu ⟨⟨0, 1⟩, ⟨0, 1⟩, ⟨0, 1⟩, 0⟩ (i, ⟨0, 1⟩) = ⟨⟨0, 1⟩, ⟨0, 1⟩, ⟨0, 1⟩, 0⟩ := by
  unfold otsuStep
  dsimp only
  rw [if_pos (Or.inl (by decide))]
  rfl

theorem otsuFold_zeroBins (mu : Frac) (l : List (Nat × Frac)) (h : ∀ b ∈ l, b.2 = ⟨0, 1⟩) :
    otsuFold mu ⟨⟨0, 1⟩, ⟨0, 1⟩, ⟨0, 1⟩, 0⟩ l = ⟨⟨0, 1⟩, ⟨0, 1⟩, ⟨0, 1⟩, 0⟩ := by
  induction l with
  | nil => rfl
  | cons b t ih =>
    simp only [otsuFold]
    have hb : otsuStep mu ⟨⟨0, 1⟩, ⟨0, 1⟩, ⟨0, 1⟩, 0⟩ b = ⟨⟨0, 1⟩, ⟨0, 1⟩, ⟨0, 1⟩, 0⟩ := by
      have hb2 : b = (b.1, (⟨0, 1⟩ : Frac)) := Prod.ext rfl (h b (List.mem_cons_self b t))
      rw [hb2]
      exact otsuStep_zeroBin mu b.1
    rw [hb, ite_self]
    exact ih fun x hx => h x (List.mem_cons_of_mem b hx)

theorem otsuStep_fullBin (mu : Frac) (i : Nat) :
    otsuStep mu ⟨⟨0, 1⟩, ⟨0, 1⟩, ⟨0, 1⟩, 0⟩ (i, ⟨1, 1⟩) = ⟨⟨1, 1⟩, ⟨0, 1⟩, ⟨0, 1⟩, 0⟩ := by
  unfold otsuStep
  dsimp only
  rw [if_pos (Or.inl (by decide))]
  rfl

theorem rowRunsAux_none (pred : Nat → Bool) :
    ∀ (row : List Nat) (i : Nat), (∀ x ∈ row, pred x = false) →
      rowRunsAux pred row i none = [] := by
  intro row
  induction row with
  | nil => intro i _; rfl
  | cons v t ih =>
    intro i h
    show rowRunsAux pred (v :: t) i none = []
    simp only [rowRunsAux]
    rw [h v (by simp)]
    exact ih (i + 1) fun x hx => h x (by simp [hx])

theorem rowRuns_none (pred : Nat → Bool) (row : List Nat)
    (h : ∀ x ∈ row, pred x = false) : rowRuns pred row = [] :=
  rowRunsAux_none pred row 0 h

theorem allRuns_nil (pred : Nat → Bool) (m : Image)
    (h : ∀ row ∈ m, ∀ x ∈ row, pred x = false) : allRuns pred m = [] := by
  unfold allRuns
  have haux : ∀ (k : Nat) (m' : Image), (∀ row ∈ m', ∀ x ∈ row, pred x = false) →
      ((List.enumFrom k m').map fun yr => (rowRuns pred yr.2).map fun ab => (yr.1, ab.1, ab.2)).flatten
        = ([] : List Run) := by
    intro k m'
    induction m' generalizing k with
    | nil => intro _; rfl
    | cons row t ih =>
      intro hm
      show (((rowRuns pred row).map _) :: _).flatten = _
      rw [List.flatten_cons]
      rw [rowRuns_none pred row (hm row (by simp)), ih (k + 1) fun r hr => hm r (by simp [hr])]
      rfl
  exact haux 0 m h

theorem extractRegions_of_noRuns (mask : Image)
    (h : allRuns (fun v => !(v == 0)) (processedMask mask) = []) :
    extractRegions mask = [] := by
  unfold extractRegions sortedContours findContoursExt compsOf labeledRuns
  rw [h]
  rfl

theorem Frac.norm_one_num {d : Int} (hd : 0 < d) : Frac.norm ⟨1, d⟩ = ⟨1, d⟩ := by
  have habs : (d.natAbs : Int) = d := Int.natAbs_of_nonneg (le_of_lt hd)
  simp only [Frac.norm, Int.natAbs_one, egcd_one_left]
  rw [if_neg (by omega)]
  norm_num

/-- `1 / n` for a positive natural `n`. -/
theorem Frac.div_one_ofNat {n : Nat} (hn : 0 < n) :
    (Frac.ofNat 1).div (Frac.ofNat n) = ⟨1, n⟩ := by
  unfold Frac.div Frac.ofNat
  dsimp only
  rw [if_neg (show ¬(((n : Nat) : Int) = 0) by omega)]
  rw [if_neg (show ¬(((n : Nat) : Int) < 0) by omega)]
  simp only [Nat.cast_one, one_mul, mul_one]
  exact Frac.norm_one_num (by exact_mod_cast hn)

theorem Frac.zero_mul_ofNat (k : Nat) : (⟨0, 1⟩ : Frac).mul (Frac.ofNat k) = ⟨0, 1⟩ := by
  unfold Frac.mul Frac.ofNat
  dsimp only
  rw [show (0 : Int) * (k : Int) = 0 by ring, show (1 : Int) * 1 = 1 by ring]
  decide

/-- Folding the Otsu step over empty bins followed by one full bin keeps the
maximum at 0: the guard fires at every step. -/
theorem otsuFold_lastFull (mu : Frac) (A : List (Nat × Frac))
    (hA : ∀ b ∈ A, b.2 = ⟨0, 1⟩) (i : Nat) :
    (otsuFold mu ⟨⟨0, 1⟩, ⟨0, 1⟩, ⟨0, 1⟩, 0⟩ (A ++ [(i, ⟨1, 1⟩)])).maxVal = 0 := by
  rw [otsuFold_append, otsuFold_zeroBins mu A hA]
  simp only [otsuFold]
  rw [otsuStep_fullBin mu i, ite_self]

/-- On an all-255 image profile the Otsu search degenerates to threshold 0:
every bin before 255 carries weight 0 and bin 255 carries the full weight, so
the loop's guard always fires. -/
theorem otsuThresh_all255 (h w : Nat) :
    otsuThresh ((List.replicate h 255).map fun v => List.replicate w v) = 0 := by
  rw [otsuThresh_banded]
  simp only [List.length_replicate]
  rcases Nat.eq_zero_or_pos (w * h) with hwh | hwh
  · have hscale : (Frac.ofNat 1).div (Frac.ofNat (w * h)) = ⟨0, 1⟩ := by
      rw [hwh]
      decide
    rw [otsuFold_zeroBins]
    intro b hb
    simp only [List.mem_map] at hb
    obtain ⟨i, _, hi⟩ := hb
    rw [← hi]
    show ((Frac.ofNat 1).div (Frac.ofNat (w * h))).mul
        (Frac.ofNat (w * (List.replicate h 255).count i)) = _
    rw [hscale, Frac.zero_mul_ofNat]
  · have hscale : (Frac.ofNat 1).div (Frac.ofNat (w * h)) = ⟨1, (w * h : Nat)⟩ :=
      Frac.div_one_ofNat hwh
    rw [show (256 : Nat) = 255 + 1 from rfl, List.range_succ]
    simp only [List.map_append, List.map_cons, List.map_nil]
    have hp : ((Frac.ofNat 1).div (Frac.ofNat (w * h))).mul
        (Frac.ofNat (w * (List.replicate h 255).count 255)) = ⟨1, 1⟩ := by
      have hcount : (List.replicate h 255).count 255 = h := by
        rw [List.count_replicate]
        simp
      rw [hcount, hscale]
      unfold Frac.mul Frac.ofNat
      dsimp only
      simp only [one_mul, mul_one]
      exact Frac.norm_one_diag (by exact_mod_cast hwh)
    rw [hp]
    apply otsuFold_lastFull
    intro b hb
    simp only [List.mem_map, List.mem_range] at hb
    obtain ⟨i, hilt, hi⟩ := hb
    rw [← hi]
    show ((Frac.ofNat 1).div (Frac.ofNat (w * h))).mul
        (Frac.ofNat (w * (List.replicate h 255).count i)) = _
    have hcount : (List.replicate h 255).count i = 0 := by
      rw [List.count_replicate]
      rw [if_neg (by simp; omega)]
    rw [hcount, Nat.mul_zero, hscale]
    unfold Frac.mul Frac.ofNat
    dsimp only
    simp only [Nat.cast_zero, mul_zero, mul_one]
    exact Frac.norm_zero_num (by positivity)

theorem extractRegions_empty_mask : extractRegions [] = [] :=
  extractRegions_of_noRuns [] rfl

theorem transposeR_replicate_nil (h : Nat) : transposeR (List.replicate h []) = [] := by
  match h with
  | 0 => rfl
  | k + 1 => rfl

theorem gaussianBlur_replicate_nil (h : Nat) : gaussianBlur (List.replicate h []) = [] := by
  unfold gaussianBlur
  dsimp only
  rw [show (List.replicate h []).map hrow = List.replicate h [] from by
    rw [List.map_replicate]; rfl]
  rw [transposeR_replicate_nil]
  rfl

theorem extractRegions_replicate_nil (h : Nat) :
    extractRegions (List.replicate h []) = [] := by
  apply extractRegions_of_noRuns
  have hpm : processedMask (List.replicate h []) = [] := by
    unfold processedMask
    dsimp only
    rw [gaussianBlur_replicate_nil]
    rfl
  rw [hpm]
  rfl

/-- A rectangular mask whose pixels are all background-white (255, no text
candidate) yields no regions: the blur keeps it constant, Otsu degenerates
to threshold 0, the inverted threshold blanks everything, and no contour
exists. -/
theorem extractRegions_all_bg (mask : Image)
    (hrect : ∀ r ∈ mask, r.length = widthOf mask)
    (hpix : ∀ r ∈ mask, ∀ v ∈ r, v = 255) :
    extractRegions mask = [] := by
  cases mask with
  | nil => exact extractRegions_empty_mask
  | cons row0 rest =>
    rcases Nat.eq_zero_or_pos (widthOf (row0 :: rest)) with hw | hw
    · have hmask : row0 :: rest = List.replicate (row0 :: rest).length [] := by
        rw [List.eq_replicate_iff]
        refine ⟨rfl, fun r hr => ?_⟩
        have := hrect r hr
        rw [hw] at this
        exact List.eq_nil_of_length_eq_zero this
      rw [hmask]
      exact extractRegions_replicate_nil _
    · have hmask : row0 :: rest =
          (List.replicate (row0 :: rest).length 255).map
            fun v => List.replicate (widthOf (row0 :: rest)) v := by
        rw [List.map_replicate]
        rw [List.eq_replicate_iff]
        exact ⟨rfl, fun r hr => List.eq_replicate_iff.mpr ⟨hrect r hr, hpix r hr⟩⟩
      rw [hmask]
      apply extractRegions_of_noRuns
      have hpm : processedMask ((List.replicate (row0 :: rest).length 255).map
            fun v => List.replicate (widthOf (row0 :: rest)) v) =
          (List.replicate (row0 :: rest).length 0).map
            fun v => List.replicate (widthOf (row0 :: rest)) v := by
        unfold processedMask
        dsimp only
        rw [gaussianBlur_banded _ _ hw, List.map_replicate, hrow_replicate, List.map_replicate]
        rw [show ((128 * (128 * 255) + 8192) / 16384 : Nat) = 255 from by norm_num]
        rw [otsuThresh_all255, threshBinInv_banded, List.map_replicate]
        rw [show (if (0 : Nat) < 255 then (0 : Nat) else 255) = 0 from by norm_num]
        rw [dilate_banded _ _ (by simp) hw, rowMaxWin_replicate]
        rw [dilate_banded _ _ (by simp) hw, rowMaxWin_replicate]
      rw [hpm]
      apply allRuns_nil
      intro row hrow x hx
      rw [List.map_replicate] at hrow
      have hrow' := List.eq_of_mem_replicate hrow
      rw [hrow'] at hx
      rw [List.eq_of_mem_replicate hx]
      rfl

theorem fracSum_eq_foldl (l : List Frac) : ∀ acc, fracSum acc l = l.foldl Frac.add acc := by
  induction l with
  | nil => intro acc; rfl
  | cons x t ih =>
    intro acc
    show (if _ then fracSum (acc.add x) t else fracSum (acc.add x) t) = _
    rw [ite_self, ih, List.foldl_cons]

theorem otsuFold_eq_foldl (mu : Frac) (l : List (Nat × Frac)) :
    ∀ st, otsuFold mu st l = l.foldl (otsuStep mu) st := by
  induction l with
  | nil => intro st; rfl
  | cons ip t ih =>
    intro st
    show (if _ then otsuFold mu (otsuStep mu st ip) t else otsuFold mu (otsuStep mu st ip) t) = _
    rw [ite_self, ih, List.foldl_cons]

theorem unionLoop_eq_foldl (diag : Bool) (n : Nat) (l : List ((Nat × Run) × (Nat × Run))) :
    ∀ par, unionLoop diag n par l =
      l.foldl (fun par p =>
        if runsAdjacent diag p.1.2 p.2.2 then ufUnion n par p.1.1 p.2.1 else par) par := by
  induction l with
  | nil => intro par; rfl
  | cons p t ih =>
    intro par
    show (if _ then unionLoop diag n _ t else unionLoop diag n _ t) = _
    rw [ite_self, ih, List.foldl_cons]

theorem rowRunsAux_replicate_pos (pred : Nat → Bool) (v : Nat) (hv : pred v = true) :
    ∀ (k i s : Nat), rowRunsAux pred (List.replicate k v) i (some s) = [(s, i + k - 1)] := by
  intro k
  induction k with
  | zero => intro i s; rfl
  | succ k ih =>
    intro i s
    show rowRunsAux pred (v :: List.replicate k v) i (some s) = _
    rw [show rowRunsAux pred (v :: List.replicate k v) i (some s) =
        if pred v then rowRunsAux pred (List.replicate k v) (i + 1) (some s)
        else (s, i - 1) :: rowRunsAux pred (List.replicate k v) (i + 1) none from rfl]
    rw [if_pos hv, ih (i + 1) s]
    have : i + 1 + k - 1 = i + (k + 1) - 1 := by omega
    rw [this]

theorem rowRuns_replicate_pos (pred : Nat → Bool) (v : Nat) (hv : pred v = true)
    (w : Nat) (hw : 1 ≤ w) :
    rowRuns pred (List.replicate w v) = [(0, w - 1)] := by
  match w, hw with
  | w' + 1, _ =>
    unfold rowRuns
    show rowRunsAux pred (v :: List.replicate w' v) 0 none = _
    rw [show rowRunsAux pred (v :: List.replicate w' v) 0 none =
        if pred v then rowRunsAux pred (List.replicate w' v) 1 (some 0)
        else rowRunsAux pred (List.replicate w' v) 1 none from rfl]
    rw [if_pos hv, rowRunsAux_replicate_pos pred v hv w' 1 0]
    have : 1 + w' - 1 = w' + 1 - 1 := by omega
    rw [this]

theorem rowRuns_replicate_neg (pred : Nat → Bool) (v : Nat) (hv : pred v = false) (w : Nat) :
    rowRuns pred (List.replicate w v) = [] :=
  rowRuns_none pred _ fun x hx => by rw [List.eq_of_mem_replicate hx]; exact hv

theorem allRuns_banded (pred : Nat → Bool) (L : List Nat) (w : Nat) (hw : 1 ≤ w) :
    allRuns pred (L.map fun v => List.replicate w v) =
      L.enum.filterMap fun yv =>
        if pred yv.2 = true then some ((yv.1, 0, w - 1) : Run) else none := by
  unfold allRuns
  have aux : ∀ (k : Nat) (M : List Nat),
      ((List.enumFrom k (M.map fun v => List.replicate w v)).map fun yr =>
        (rowRuns pred yr.2).map fun ab => ((yr.1, ab.1, ab.2) : Run)).flatten =
      (List.enumFrom k M).filterMap fun yv =>
        if pred yv.2 = true then some ((yv.1, 0, w - 1) : Run) else none := by
    intro k M
    induction M generalizing k with
    | nil => rfl
    | cons v t ih =>
      show ((((k, List.replicate w v) :: List.enumFrom (k + 1) (t.map fun v => List.replicate w v)).map
          fun yr => (rowRuns pred yr.2).map fun ab => ((yr.1, ab.1, ab.2) : Run)).flatten) = _
      rw [List.map_cons, List.flatten_cons, ih (k + 1)]
      show ((rowRuns pred (List.replicate w v)).map fun ab => ((k, ab.1, ab.2) : Run)) ++ _ =
        List.filterMap _ ((k, v) :: List.enumFrom (k + 1) t)
      rw [List.filterMap_cons]
      by_cases hv : pred v = true
      · rw [rowRuns_replicate_pos pred v hv w hw]
        simp only [hv, if_true, List.map_cons, List.map_nil]
        rfl
      · rw [rowRuns_replicate_neg pred v (by simpa using hv) w]
        simp only [hv]
        rfl
  exact aux 0 L

theorem foldl_filter_crop (mask : Image) (l : List (List Run)) :
    ∀ acc : List Image,
      l.foldl (fun rois c =>
        let r := boundingRect c
        if 20 < r.h ∧ 200 < r.w then rois ++ [cropRect mask r] else rois) acc =
      acc ++ ((l.map boundingRect).filter fun r =>
        decide (20 < r.h ∧ 200 < r.w)).map (cropRect mask) := by
  induction l with
  | nil => intro acc; simp
  | cons c t ih =>
    intro acc
    rw [List.foldl_cons, List.map_cons, List.filter_cons]
    by_cases h : 20 < (boundingRect c).h ∧ 200 < (boundingRect c).w
    · show t.foldl _ (if 20 < (boundingRect c).h ∧ 200 < (boundingRect c).w
          then acc ++ [cropRect mask (boundingRect c)] else acc) = _
      rw [if_pos h, ih]
      have hd : decide (20 < (boundingRect c).h ∧ 200 < (boundingRect c).w) = true :=
        decide_eq_true h
      rw [if_pos hd, List.map_cons, List.append_assoc]
      rfl
    · show t.foldl _ (if 20 < (boundingRect c).h ∧ 200 < (boundingRect c).w
          then acc ++ [cropRect mask (boundingRect c)] else acc) = _
      rw [if_neg h, ih]
      have hd : decide (20 < (boundingRect c).h ∧ 200 < (boundingRect c).w) = false :=
        decide_eq_false h
      rw [if_neg (by rw [hd]; exact Bool.false_ne_true)]

theorem levRatio_den_pos (a b : List Char) : 0 < (levRatio a b).den := by
  unfold levRatio
  dsimp only
  by_cases h : a.length + b.length = 0
  · rw [if_pos h]
    norm_num
  · rw [if_neg h]
    show (0 : Int) < ((a.length + b.length : Nat) : Int)
    exact_mod_cast Nat.pos_of_ne_zero h

/-- Truthiness of `lv.ratio(a, b, score_cutoff=0.90)` is exactly the rational
similarity ratio reaching 9/10. -/
theorem lvRatio_num_ne_iff (a b : List Char) :
    (lvRatio a b scoreCutoff).num ≠ 0 ↔ (9 : ℚ)/10 ≤ (levRatio a b).toRat := by
  have hden : (0 : Int) < (levRatio a b).den := levRatio_den_pos a b
  have hdenQ : (0 : ℚ) < (((levRatio a b).den : Int) : ℚ) := by exact_mod_cast hden
  have hiff : (9 : ℚ)/10 ≤ (levRatio a b).toRat ↔
      9 * (levRatio a b).den ≤ (levRatio a b).num * 10 := by
    unfold Frac.toRat
    rw [div_le_div_iff₀ (by norm_num) hdenQ]
    constructor
    · intro h
      exact_mod_cast h
    · intro h
      exact_mod_cast h
  rw [hiff]
  unfold lvRatio scoreCutoff
  dsimp only
  by_cases hlt : Frac.lt (levRatio a b) ⟨9, 10⟩ = true
  · rw [if_pos hlt]
    unfold Frac.lt at hlt
    simp only [decide_eq_true_eq] at hlt
    constructor
    · intro h0
      exact absurd rfl h0
    · intro h
      exact absurd h (by omega)
  · rw [if_neg hlt]
    unfold Frac.lt at hlt
    simp only [decide_eq_true_eq, not_lt] at hlt
    constructor
    · intro _
      exact hlt
    · intro _ h0
      rw [h0] at hlt
      omega

theorem charToNat_ofNat {n : Nat} (hn : Nat.isValidChar n) : (Char.ofNat n).toNat = n := by
  unfold Char.ofNat
  rw [dif_pos hn]
  rfl

theorem pyCharLower_idem (c : Char) : pyCharLower (pyCharLower c) = pyCharLower c := by
  unfold pyCharLower
  by_cases h : 'A' ≤ c ∧ c ≤ 'Z'
  · rw [if_pos h]
    have h1 : 65 ≤ c.toNat := Char.le_def.mp h.1
    have h2 : c.toNat ≤ 90 := Char.le_def.mp h.2
    have htn : (Char.ofNat (c.toNat + 32)).toNat = c.toNat + 32 :=
      charToNat_ofNat (by left; omega)
    rw [if_neg (fun hc => by
      have hle : (Char.ofNat (c.toNat + 32)).toNat ≤ ('Z').toNat := Char.le_def.mp hc.2
      have hz : ('Z').toNat = 90 := rfl
      rw [htn, hz] at hle
      omega)]
  · rw [if_neg h, if_neg h]

theorem pyLower_idem (s : List Char) : pyLower (pyLower s) = pyLower s := by
  unfold pyLower
  rw [List.map_map]
  exact List.map_congr_left fun c _ => pyCharLower_idem c

/-! ## Claim analysis -/

/-- C1.  `hasMatchingPhrase(phrases, searchStrings)` is true exactly when some
pair of the cross product has normalized similarity between the lowercased
phrase and the search string reaching the 0.90 cutoff; in particular it is
false when no pair reaches the cutoff, and whenever either list is empty. -/
theorem hasMatchingPhrase_iff_cross_product (phrases searchStrings : List (List Char)) :
    hasMatchingPhrase phrases searchStrings = true ↔
      ∃ p ∈ phrases, ∃ s ∈ searchStrings, (9 : ℚ)/10 ≤ (levRatio (pyLower p) s).toRat := by
  unfold hasMatchingPhrase
  simp only [List.any_eq_true, decide_eq_true_eq]
  exact exists_congr fun p => and_congr_right fun _ =>
    exists_congr fun s => and_congr_right fun _ => lvRatio_num_ne_iff (pyLower p) s

/-- C2.  `isolate` output pixelwise: a pixel whose HSV value lies inside the
inclusive bounds comes out 0 (black — the isolated text kept for OCR), and
every other pixel comes out 255 (white); the mask is the `bitwise_not`
complement of the in-range mask.  Consequently a frame whose pixels all lie
inside the bounds yields the all-zero mask, not an all-255 one. -/
theorem isolate_pointwise_complement :
    (∀ (img : Image3) (lower upper : Pix3),
      isolate img lower upper = img.map (List.map fun p =>
        if inBoundsHSV (bgr2hsvPix p) lower upper then 0 else 255)) ∧
    (∀ (img : Image3) (lower upper : Pix3),
      (∀ row ∈ img, ∀ p ∈ row, inBoundsHSV (bgr2hsvPix p) lower upper) →
      ∀ row ∈ isolate img lower upper, ∀ v ∈ row, v = 0) := by
  have hpt : ∀ (img : Image3) (lower upper : Pix3),
      isolate img lower upper = img.map (List.map fun p =>
        if inBoundsHSV (bgr2hsvPix p) lower upper then 0 else 255) := by
    intro img lower upper
    unfold isolate cvtBGR2HSV
    rw [List.map_map]
    apply List.map_congr_left
    intro row _
    show (row.map bgr2hsvPix).map (fun p => 255 - inRangePix p lower upper) = _
    rw [List.map_map]
    apply List.map_congr_left
    intro p _
    show 255 - inRangePix (bgr2hsvPix p) lower upper = _
    unfold inRangePix inBoundsHSV
    by_cases h : lower.1 ≤ (bgr2hsvPix p).1 ∧ (bgr2hsvPix p).1 ≤ upper.1 ∧
        lower.2.1 ≤ (bgr2hsvPix p).2.1 ∧ (bgr2hsvPix p).2.1 ≤ upper.2.1 ∧
        lower.2.2 ≤ (bgr2hsvPix p).2.2 ∧ (bgr2hsvPix p).2.2 ≤ upper.2.2
    · rw [if_pos h, if_pos h]
    · rw [if_neg h, if_neg h]
  refine ⟨hpt, fun img lower upper hin row hrow v hv => ?_⟩
  rw [hpt img lower upper] at hrow
  simp only [List.mem_map] at hrow
  obtain ⟨row0, hrow0, hrow0eq⟩ := hrow
  rw [← hrow0eq] at hv
  simp only [List.mem_map] at hv
  obtain ⟨p, hp, hpeq⟩ := hv
  rw [← hpeq, if_pos (hin row0 hrow0 p hp)]

/-- C2, counterexample to the claim's last clause.  A one-pixel frame lying
inside the bounds yields the mask `[[0]]`; the mask value that out-of-range
pixels (the spec's "foreground" for contour detection) receive is 255, as
the second frame shows — so an all-inside frame yields an all-zero mask,
not an all-foreground (255) one. -/
theorem isolate_all_inside_cex :
    inBoundsHSV (bgr2hsvPix (0, 0, 0)) (0, 0, 0) (255, 255, 255) ∧
    isolate [[(0, 0, 0)]] (0, 0, 0) (255, 255, 255) = [[0]] ∧
    ¬ inBoundsHSV (bgr2hsvPix (0, 0, 0)) (1, 0, 0) (255, 255, 255) ∧
    isolate [[(0, 0, 0)]] (1, 0, 0) (255, 255, 255) = [[255]] ∧
    isolate [[(0, 0, 0)]] (0, 0, 0) (255, 255, 255) ≠ [[255]] := by
  decide

/-- C2, witness: the theorem instantiated on the concrete one-pixel in-range
frame. -/
theorem isolate_pointwise_complement_witness :
    isolate [[(0, 0, 0)]] (0, 0, 0) (255, 255, 255) = [[0]] ∧ (0 : Nat) = 0 :=
  ⟨by rw [isolate_pointwise_complement.1 [[(0, 0, 0)]] (0, 0, 0) (255, 255, 255)]; decide,
   isolate_pointwise_complement.2 [[(0, 0, 0)]] (0, 0, 0) (255, 255, 255)
     (by decide) [0] (by decide) 0 (by decide)⟩

/-- C3.  One pipeline invocation fires exactly one alert call when the
recognized phrases fuzzily match the watch-list and zero calls when they do
not, and every call it makes is the non-blocking `quiet_alert.mp3`
`playsound` call. -/
theorem runOCR_alert_characterization (img : Image3) (recognize : Image → List Char)
    (searchStrings : List (List Char)) :
    (runOCR img recognize searchStrings).length =
      (if hasMatchingPhrase (getPhraseStrings img recognize) searchStrings then 1 else 0) ∧
    (runOCR img recognize searchStrings).all
      (fun a => decide (a = { clip := "quiet_alert.mp3", nonBlocking := true })) = true := by
  unfold runOCR
  by_cases h : hasMatchingPhrase (getPhraseStrings img recognize) searchStrings = true
  · rw [if_pos h, if_pos h]
    exact ⟨rfl, rfl⟩
  · rw [if_neg h, if_neg h]
    exact ⟨rfl, rfl⟩

/-- C5.  `extractRegions` keeps exactly the sorted contours whose bounding
rectangle passes the strict `h > 20 and w > 200` filter, emitting the mask
crop of each survivor. -/
theorem extractRegions_size_filter (mask : Image) :
    extractRegions mask =
      (((sortedContours (processedMask mask)).map boundingRect).filter fun r =>
        decide (20 < r.h ∧ 200 < r.w)).map (cropRect mask) := by
  unfold extractRegions
  rw [foldl_filter_crop]
  exact List.nil_append _

/-- C6.  The emitted regions are the crops of `regionRects` in order, and
those rectangles are pairwise sorted by ascending x; the sort is a stable
permutation of the found contours. -/
theorem extractRegions_sorted_by_x (mask : Image) :
    (regionRects mask).Pairwise (fun r1 r2 => r1.x ≤ r2.x) ∧
    extractRegions mask = (regionRects mask).map (cropRect mask) ∧
    (sortedContours (processedMask mask)).Perm (findContoursExt (processedMask mask)) := by
  refine ⟨?_, ?_, ?_⟩
  · unfold regionRects
    apply List.Pairwise.filter
    exact List.Pairwise.map boundingRect (fun c1 c2 h => h)
      (by unfold sortedContours; exact List.sorted_insertionSort contourLE _)
  · unfold extractRegions regionRects
    rw [foldl_filter_crop]
    exact List.nil_append _
  · unfold sortedContours
    exact List.perm_insertionSort contourLE _

/-- C7.  The wildcard branch of `getHSVBounds` does not return the widest
range: `np.array(255,255,255)` passes `255` as NumPy's `dtype` argument, so
every unrecognized mode raises a `TypeError` instead of yielding bounds;
only the two presets return values. -/
theorem getHSVBounds_unrecognized_mode_error :
    (∀ mode : String, mode ≠ "sextants" → mode ≠ "equipment" →
      getHSVBounds mode = .error "TypeError: Cannot interpret given argument as a data type") ∧
    getHSVBounds "sextants" = .ok ((102, 57, 180), (103, 61, 255)) ∧
    getHSVBounds "equipment" = .ok ((120, 119, 165), (121, 123, 255)) := by
  refine ⟨?_, rfl, rfl⟩
  intro mode h1 h2
  unfold getHSVBounds
  split
  · exact absurd rfl h1
  · exact absurd rfl h2
  · rfl

/-- C7, witness: the default-style mode name hits the error branch. -/
theorem getHSVBounds_unrecognized_mode_error_witness :
    getHSVBounds "default" = .error "TypeError: Cannot interpret given argument as a data type" :=
  getHSVBounds_unrecognized_mode_error.1 "default" (by decide) (by decide)

/-- C8.  Amended relation: lowercasing the *candidate* strings (which the
code folds at comparison time) never changes the decision; the watch-list
entries are compared verbatim. -/
theorem hasMatchingPhrase_lower_candidates (phrases searchStrings : List (List Char)) :
    hasMatchingPhrase (phrases.map pyLower) searchStrings =
      hasMatchingPhrase phrases searchStrings := by
  unfold hasMatchingPhrase
  rw [List.any_map]
  apply congrArg
  funext phrase
  show (searchStrings.any fun string =>
      decide ((lvRatio (pyLower (pyLower phrase)) string scoreCutoff).num ≠ 0)) = _
  rw [pyLower_idem]

/-- C8, counterexample: the watch-list is *not* folded, so an uppercase
watch-list entry misses the phrase it would match in lowercase — lowercasing
the watch list changes the result. -/
theorem hasMatchingPhrase_watchlist_case_cex :
    hasMatchingPhrase [['h', 'e', 'l', 'l', 'o']] [['H', 'E', 'L', 'L', 'O']] = false ∧
    hasMatchingPhrase [['h', 'e', 'l', 'l', 'o']]
      (([['H', 'E', 'L', 'L', 'O']] : List (List Char)).map pyLower) = true := by
  constructor
  · decide
  · decide

/-- C9.  Amended behaviour: the loop of `getPhraseStrings` has no handler, so
when the recognition collaborator succeeds on every earlier region and
raises on one region, the whole invocation aborts with that error — the
remaining regions are never processed and no empty contribution is
substituted. -/
theorem recognizeRegions_first_error_aborts (pre : List Image) (r : Image)
    (post : List Image) (recognize : Image → Except String (List Char)) (e : String)
    (hpre : ∀ x ∈ pre, ∃ s, recognize x = .ok s) (hr : recognize r = .error e) :
    recognizeRegions (pre ++ r :: post) recognize = .error e := by
  unfold recognizeRegions
  induction pre with
  | nil =>
    rw [List.nil_append, List.mapM_cons, hr]
    rfl
  | cons x t ih =>
    obtain ⟨s, hs⟩ := hpre x (by simp)
    rw [List.cons_append, List.mapM_cons, hs, ih fun y hy => hpre y (by simp [hy])]
    rfl

/-- C9, counterexample: a recognizer that raises on the first region and
succeeds on the second still aborts the whole call with the error — the
second region's text is lost rather than the first being replaced by an
empty contribution. -/
theorem recognizeRegions_error_cex :
    recognizeRegions [[[0]], [[1]]]
      (fun roi => if roi = [[0]] then .error "TesseractError" else .ok ['o', 'k']) =
      .error "TesseractError" ∧
    (fun roi => if roi = [[0]] then (.error "TesseractError" : Except String (List Char))
      else .ok ['o', 'k']) [[1]] = .ok ['o', 'k'] := by
  constructor
  · rfl
  · rfl

/-- C9, witness: the amended theorem applied to a three-region run whose
middle region fails. -/
theorem recognizeRegions_first_error_aborts_witness :
    recognizeRegions [[[1]], [[0]], [[2]]]
      (fun roi => if roi = [[0]] then .error "TesseractError" else .ok ['o', 'k']) =
      .error "TesseractError" :=
  recognizeRegions_first_error_aborts [[[1]]] [[0]] [[[2]]]
    (fun roi => if roi = [[0]] then .error "TesseractError" else .ok ['o', 'k'])
    "TesseractError"
    (fun x hx => by
      rw [List.mem_singleton.mp hx]
      exact ⟨['o', 'k'], rfl⟩)
    rfl

/-- C10.  The ratio of two empty strings is 1, which passes the 0.90 cutoff,
so an empty recognized phrase matches a blank watch-list entry; and the
loader keeps interior blank lines, as the concrete split shows. -/
theorem empty_phrase_blank_line_match :
    (∀ phrases searchStrings : List (List Char),
      [] ∈ phrases → [] ∈ searchStrings → hasMatchingPhrase phrases searchStrings = true) ∧
    levRatio [] [] = ⟨1, 1⟩ ∧
    getSearchStrings ['a', '\n', '\n', 'b'] = [['a'], [], ['b']] := by
  refine ⟨?_, rfl, rfl⟩
  intro phrases searchStrings h1 h2
  unfold hasMatchingPhrase
  rw [List.any_eq_true]
  refine ⟨[], h1, ?_⟩
  rw [List.any_eq_true]
  exact ⟨[], h2, by decide⟩

/-- C10, witness: a blank watch-list entry and an empty candidate trigger the
match. -/
theorem empty_phrase_blank_line_match_witness :
    hasMatchingPhrase [[]] [[]] = true :=
  empty_phrase_blank_line_match.1 [[]] [[]] (by decide) (by decide)

/-- C4.  Corrected form.  First: a rectangular mask with no foreground (all
pixels 255) yields no regions.  Second: the size filter applies to the
bounding rectangles of the contours found on the *processed* (blurred,
thresholded, twice-dilated) mask — whenever every such rectangle fails
`h > 20 and w > 200`, the output is empty.  The original claim's reading —
that a foreground blob of height ≤ 20 (or width ≤ 200) in the *input* mask
always yields an empty output — is refuted by
`extractRegions_small_blob_cex`: dilation can grow a small blob past the
filter. -/
theorem extractRegions_empty_characterization :
    (∀ mask : Image, (∀ r ∈ mask, r.length = widthOf mask) →
      (∀ r ∈ mask, ∀ v ∈ r, v = 255) → extractRegions mask = []) ∧
    (∀ mask : Image,
      (∀ c ∈ findContoursExt (processedMask mask),
        ¬(20 < (boundingRect c).h ∧ 200 < (boundingRect c).w)) →
      extractRegions mask = []) := by
  constructor
  · intro mask h1 h2
    exact extractRegions_all_bg mask h1 h2
  · intro mask hc
    unfold extractRegions
    rw [foldl_filter_crop]
    have hnil : ((sortedContours (processedMask mask)).map boundingRect).filter
        (fun r => decide (20 < r.h ∧ 200 < r.w)) = [] := by
      rw [List.filter_eq_nil_iff]
      intro r hr
      simp only [List.mem_map] at hr
      obtain ⟨c, hcmem, rfl⟩ := hr
      unfold sortedContours at hcmem
      have hcmem' : c ∈ findContoursExt (processedMask mask) :=
        (List.perm_insertionSort contourLE _).mem_iff.mp hcmem
      simpa using hc c hcmem'
    rw [hnil]
    rfl

set_option maxRecDepth 8192 in
set_option maxHeartbeats 1000000 in
/-- C4, witness: a 4x3 all-background mask, and a 1x1 mask whose single
contour fails the size filter, both yield no regions. -/
theorem extractRegions_empty_characterization_witness :
    extractRegions ((List.replicate 3 255).map fun v => List.replicate 4 v) = [] ∧
    extractRegions [[0]] = [] :=
  ⟨extractRegions_empty_characterization.1 _ (by decide) (by decide),
   extractRegions_empty_characterization.2 [[0]] (by decide)⟩

set_option maxRecDepth 16384 in
set_option maxHeartbeats 4000000 in
/-- C4, counterexample to the claim's second part.  `cexMask` is 210 wide
and 23 tall; its only foreground (zero pixels, the isolated text) is one
full-width band whose bounding box is 210x17 — height 17 ≤ 20, so it is
"smaller than the size filters".  Yet after blurring, Otsu thresholding and
two dilations the blob's rectangle grows to 210x22, passes the filter, and
`extractRegions` emits one region instead of none. -/
theorem extractRegions_small_blob_cex :
    (∀ r ∈ cexMask, r.length = 210) ∧
    cexMask.length = 23 ∧
    boundingRect (allRuns (fun v => v == 0) cexMask) = ⟨0, 3, 210, 17⟩ ∧
    (extractRegions cexMask).length = 1 := by
  have hruns : allRuns (fun v => v == 0) cexMask =
      cexProfile.enum.filterMap fun yv =>
        if ((fun v => v == 0) yv.2) = true then some ((yv.1, 0, 210 - 1) : Run) else none := by
    unfold cexMask
    exact allRuns_banded _ cexProfile 210 (by norm_num)
  refine ⟨by decide, by decide, ?_, ?_⟩
  · rw [hruns]
    decide
  · have hpm : processedMask cexMask =
        (List.replicate 22 255 ++ [0]).map fun v => List.replicate 210 v := by
      unfold processedMask cexMask
      dsimp only
      rw [gaussianBlur_banded cexProfile 210 (by norm_num)]
      rw [show ((hrow (cexProfile.map fun v => 128 * v)).map fun s => (s + 8192) / 16384) =
          [239, 219, 163, 92, 36, 8, 0, 0, 0, 0, 0, 0, 0, 0, 0, 0, 0, 8, 36, 92, 163, 219, 239]
        from by decide]
      have hot : otsuThresh
          (([239, 219, 163, 92, 36, 8, 0, 0, 0, 0, 0, 0, 0, 0, 0, 0, 0, 8, 36, 92, 163, 219,
            239] : List Nat).map fun v => List.replicate 210 v) = 92 := by
        rw [otsuThresh_banded]
        decide
      rw [hot, threshBinInv_banded]
      rw [show (([239, 219, 163, 92, 36, 8, 0, 0, 0, 0, 0, 0, 0, 0, 0, 0, 0, 8, 36, 92, 163, 219,
          239] : List Nat).map fun v => if 92 < v then 0 else 255) =
          [0, 0, 0, 255, 255, 255, 255, 255, 255, 255, 255, 255, 255, 255, 255, 255, 255, 255,
            255, 255, 0, 0, 0] from by decide]
      rw [dilate_banded _ 210 (by decide) (by norm_num)]
      rw [show rowMaxWin 1 2 [0, 0, 0, 255, 255, 255, 255, 255, 255, 255, 255, 255, 255, 255,
          255, 255, 255, 255, 255, 255, 0, 0, 0] =
          [0, 255, 255, 255, 255, 255, 255, 255, 255, 255, 255, 255, 255, 255, 255, 255, 255,
            255, 255, 255, 255, 0, 0] from by decide]
      rw [dilate_banded _ 210 (by decide) (by norm_num)]
      rw [show rowMaxWin 1 2 [0, 255, 255, 255, 255, 255, 255, 255, 255, 255, 255, 255, 255,
          255, 255, 255, 255, 255, 255, 255, 255, 0, 0] = List.replicate 22 255 ++ [0]
        from by decide]
    unfold extractRegions
    rw [hpm, foldl_filter_crop, List.nil_append]
    unfold sortedContours findContoursExt compsOf labeledRuns
    dsimp only
    have hfg : allRuns (fun v => !(v == 0)) ((List.replicate 22 255 ++ [0]).map fun v =>
        List.replicate 210 v) = (List.range 22).map fun y => ((y, 0, 209) : Run) := by
      rw [allRuns_banded _ _ 210 (by norm_num)]
      decide
    simp only [hfg]
    decide
